import Mathlib

/-!
Verification of the line-oriented Markdown reformatter in
`transform_markdown.py` (functions `transform_content` and
`check_if_transformed`).

Strings are shallowly embedded as `List Char`.  Python's `str.strip()` and
the regex class `\s` are both modelled by `isPySpace` (the ASCII whitespace
characters); `str.splitlines()` is modelled for newline-separated text by
`pySplitlines`; each regex used by the program is modelled by an explicit
matcher that follows the regex's (greedy, backtracking) semantics on the
line shapes the program feeds it.
-/

/-- Whitespace, as Python's `str.strip` / regex `\s` see it (ASCII range). -/
def isPySpace (c : Char) : Bool :=
  c = ' ' || c = '\t' || c = '\n' || c = '\r' || c = '\x0b' || c = '\x0c'

/-- Python `str.strip()`: drop leading and trailing whitespace. -/
def pyStrip (l : List Char) : List Char :=
  ((l.dropWhile isPySpace).reverse.dropWhile isPySpace).reverse

/-- Python `str.splitlines()` for newline-separated text: split on `'\n'`,
with no trailing empty piece when the text ends in a newline. -/
def pySplitlines : List Char → List (List Char)
  | [] => []
  | c :: rest =>
    if c = '\n' then [] :: pySplitlines rest
    else
      match pySplitlines rest with
      | [] => [[c]]
      | h :: t => (c :: h) :: t

/-- The lines of a string in the usual sense: split on `'\n'`, keeping every
piece (the empty string has one empty line).  Used to state properties about
lines of the final output. -/
def linesOf : List Char → List (List Char)
  | [] => [[]]
  | c :: rest =>
    if c = '\n' then [] :: linesOf rest
    else
      match linesOf rest with
      | [] => [[c]]
      | h :: t => (c :: h) :: t

/-- `"\n".join(lines)`. -/
def joinNL : List (List Char) → List Char
  | [] => []
  | [l] => l
  | l :: ls => l ++ '\n' :: joinNL ls

/-- The raw label `"File Path: "` recognised at the start of a stripped line. -/
def fpLabel : List Char := "File Path: ".toList

/-- The raw label `"Overall Assessment:"`. -/
def oaRaw : List Char := "Overall Assessment:".toList

/-- The raw label `"Key Findings and Suggestions:"`. -/
def kfRaw : List Char := "Key Findings and Suggestions:".toList

/-- The raw label `"Actionable Recommendations:"`. -/
def arRaw : List Char := "Actionable Recommendations:".toList

/-- The emitted heading `"## Overall Assessment"`. -/
def oaH2 : List Char := "## Overall Assessment".toList

/-- The emitted heading `"## Key Findings and Suggestions"`. -/
def kfH2 : List Char := "## Key Findings and Suggestions".toList

/-- The emitted heading `"## Actionable Recommendations"`. -/
def arH2 : List Char := "## Actionable Recommendations".toList

/-- The heading marker `"## "`. -/
def h2Marker : List Char := "## ".toList

/-- The heading marker `"### "`. -/
def h3Marker : List Char := "### ".toList

/-- The transformed file-path marker `"## File Path: `"` that
`check_if_transformed` looks for. -/
def fpTransformed : List Char := "## File Path: `".toList

/-- Pass 1's sub-heading regex `^\*\s+(.+?):$` applied to a stripped line:
a `'*'`, at least one whitespace character, at least one further character,
and a final `':'`.  Returns the stripped text of the lazy group (`.+?`),
which — after stripping — is the stripped line content between the
whitespace run and the final colon. -/
def matchH3 (s : List Char) : Option (List Char) :=
  match s with
  | '*' :: c :: rest =>
    if isPySpace c ∧ 2 ≤ rest.length ∧ rest.getLast? = some ':' then
      some (pyStrip ((c :: rest).dropLast))
    else none
  | _ => none

/-- Pass 2's Key-Findings item regex `^\s{2,}\*\s+(.*)` applied to the raw
line: at least 2 leading whitespace characters, `'*'`, at least one
whitespace character, then the rest (returned without its leading
whitespace, as the greedy `\s+` leaves it). -/
def matchKFItem (line : List Char) : Option (List Char) :=
  match line.dropWhile isPySpace with
  | '*' :: r2 =>
    if 2 ≤ (line.takeWhile isPySpace).length then
      match r2.takeWhile isPySpace with
      | [] => none
      | _ :: _ => some (r2.dropWhile isPySpace)
    else none
  | _ => none

/-- Pass 2's numbered-item regex `^\d+\.\s+.*` applied to a stripped line:
at least one digit, a `'.'`, then at least one whitespace character. -/
def matchNumbered (s : List Char) : Bool :=
  match s.takeWhile Char.isDigit, s.dropWhile Char.isDigit with
  | _ :: _, '.' :: c :: _ => isPySpace c
  | _, _ => false

/-- Pass 2's sub-item regex `^(\s*)(\*|-)\s+(.*)` applied to the raw line:
leading whitespace (group 1), a `'*'` or `'-'` marker (group 2), at least
one whitespace character, then the rest (group 3, without its leading
whitespace, as the greedy `\s+` leaves it). -/
def matchSubItem (line : List Char) : Option (List Char × Char × List Char) :=
  match line.dropWhile isPySpace with
  | m :: r2 =>
    if m = '*' ∨ m = '-' then
      match r2.takeWhile isPySpace with
      | [] => none
      | _ :: _ => some (line.takeWhile isPySpace, m, r2.dropWhile isPySpace)
    else none
  | [] => none

/-- One iteration of the first `for` loop of `transform_content`
(the label-to-heading pass): returns the updated
`(in_key_findings, in_actionable_recommendations)` state and the emitted
line. -/
def pass1Step (kf ar : Bool) (line : List Char) : (Bool × Bool) × List Char :=
  let s := pyStrip line
  if fpLabel.isPrefixOf s then
    ((kf, ar), "## File Path: `".toList ++ pyStrip (s.drop fpLabel.length) ++ "`".toList)
  else if s = oaRaw then ((false, false), oaH2)
  else if s = kfRaw then ((true, false), kfH2)
  else if s = arRaw then ((false, true), arH2)
  else if kf then
    match matchH3 s with
    | some text => ((kf, ar), h3Marker ++ text)
    | none => ((kf, ar), line)
  else ((kf, ar), line)

/-- The whole first pass: emits one line per input line and returns the
final `(in_key_findings, in_actionable_recommendations)` state — the Python
code reuses those two variables in the second loop without resetting them. -/
def pass1Run (kf ar : Bool) : List (List Char) → (Bool × Bool) × List (List Char)
  | [] => ((kf, ar), [])
  | l :: ls =>
    match pass1Step kf ar l with
    | (st, out) =>
      match pass1Run st.1 st.2 ls with
      | (st', outs) => (st', out :: outs)

/-- Should the blank-line branch of pass 2 append an empty line?
Mirrors `not processed_lines or processed_lines[-1].strip() != ""`. -/
def emitBlankOk (acc : List (List Char)) : Bool :=
  match acc.getLast? with
  | none => true
  | some l => decide (pyStrip l ≠ [])

/-- The default (last) branch of pass 2's loop body: a non-empty stripped
line passes through stripped, an empty one appends a single blank unless the
previously emitted line is already blank. -/
def pass2Default (acc : List (List Char)) (s : List Char) : List (List Char) :=
  if s ≠ [] then acc ++ [s]
  else if emitBlankOk acc then acc ++ [[]]
  else acc

/-- The non-heading branches of pass 2's loop body (Key-Findings items,
Actionable-Recommendations numbered items and sub-items, default). -/
def pass2Emit (kf ar h3 : Bool) (acc : List (List Char)) (line s : List Char) :
    List (List Char) :=
  match (if kf && h3 then matchKFItem line else none) with
  | some item => acc ++ ['-' :: ' ' :: pyStrip item]
  | none =>
    if ar && matchNumbered s then acc ++ [s]
    else
      match (if ar then matchSubItem line else none) with
      | some (lead, m, rest) =>
        if 1 ≤ lead.length then
          if 8 ≤ lead.length then acc ++ [lead ++ m :: ' ' :: pyStrip rest]
          else acc ++ ["    ".toList ++ m :: ' ' :: pyStrip rest]
        else pass2Default acc s
      | none => pass2Default acc s

/-- One iteration of the second `for` loop of `transform_content`
(the structure pass): returns the updated
`(in_key_findings, in_actionable_recommendations, current_h3_active)` state
and the grown `processed_lines`. -/
def pass2Step (kf ar h3 : Bool) (acc : List (List Char)) (line : List Char) :
    (Bool × Bool × Bool) × List (List Char) :=
  let s := pyStrip line
  if s = kfH2 then ((true, false, false), acc ++ [s])
  else if s = arH2 then ((false, true, false), acc ++ [s])
  else if h2Marker.isPrefixOf s then ((false, false, false), acc ++ [s])
  else if h3Marker.isPrefixOf s then ((kf, ar, true), acc ++ [s])
  else ((kf, ar, h3), pass2Emit kf ar h3 acc line s)

/-- The whole second pass, folding `pass2Step` over the lines. -/
def pass2Run (kf ar h3 : Bool) (acc : List (List Char)) :
    List (List Char) → List (List Char)
  | [] => acc
  | l :: ls =>
    match pass2Step kf ar h3 acc l with
    | ((kf', ar', h3'), acc') => pass2Run kf' ar' h3' acc' ls

/-- Removal of the leading run of blank lines from `processed_lines`
(the `start_index` loop). -/
def dropLeadingBlanks : List (List Char) → List (List Char)
  | [] => []
  | l :: rest =>
    if pyStrip l = [] then rest.dropWhile (fun x => decide (pyStrip x = []))
    else l :: rest

/-- The deduplication loop building `deduped_blank_lines`: a blank line is
skipped when the last kept line is already blank. -/
def dedupBlanks (acc : List (List Char)) : List (List Char) → List (List Char)
  | [] => acc
  | l :: ls =>
    if pyStrip l = [] ∧ emitBlankOk acc = false then dedupBlanks acc ls
    else dedupBlanks (acc ++ [l]) ls

/-- One newline run, as `re.sub(r'\n{3,}', '\n\n', ...)` rewrites it:
a run of `n` newlines becomes two newlines when `n ≥ 3`. -/
def emitRun (n : Nat) (rest : List Char) : List Char :=
  (if 3 ≤ n then ['\n', '\n'] else List.replicate n '\n') ++ rest

/-- Scan for `re.sub(r'\n{3,}', '\n\n', ...)`: `pending` counts the
newlines of the current run. -/
def collapseGo (pending : Nat) : List Char → List Char
  | [] => emitRun pending []
  | c :: cs =>
    if c = '\n' then collapseGo (pending + 1) cs
    else emitRun pending (c :: collapseGo 0 cs)

/-- `re.sub(r'\n{3,}', '\n\n', s)`: collapse every run of three or more
newlines to exactly two. -/
def collapseRuns (l : List Char) : List Char := collapseGo 0 l

/-- The full pipeline of `transform_content`: split into lines, pass 1,
pass 2 (started from the state pass 1 ended in, as the Python code does),
leading-blank removal, blank deduplication, join, strip, newline-run
collapse. -/
def transform_content (content : List Char) : List Char :=
  match pass1Run false false (pySplitlines content) with
  | (st1, temp) =>
    collapseRuns (pyStrip (joinNL
      (dedupBlanks [] (dropLeadingBlanks (pass2Run st1.1 st1.2 false [] temp)))))

/-- The scan of `check_if_transformed` over the document's lines: skip blank
lines; the first non-blank line decides. -/
def checkScan : List (List Char) → Bool
  | [] => false
  | l :: rest =>
    if pyStrip l = [] then checkScan rest
    else fpTransformed.isPrefixOf (pyStrip l)

/-- `check_if_transformed`: the document is `none` when reading fails (the
`except` branch returns `False`), otherwise the file's text. -/
def check_if_transformed (doc : Option (List Char)) : Bool :=
  match doc with
  | none => false
  | some content => checkScan (pySplitlines content)

/-! ### Basic facts about `dropWhile`, `getLast?` and `pyStrip` -/

theorem head?_dropWhile_not {p : Char → Bool} :
    ∀ {l : List Char} {c : Char}, (l.dropWhile p).head? = some c → p c = false := by
  intro l
  induction l with
  | nil => intro c h; simp [List.dropWhile] at h
  | cons a as ih =>
    intro c h
    rw [List.dropWhile_cons] at h
    by_cases hp : p a = true
    · rw [if_pos hp] at h; exact ih h
    · rw [if_neg hp] at h
      rw [List.head?_cons, Option.some_inj] at h
      subst h
      exact Bool.eq_false_iff.mpr hp

theorem getLast?_dropWhile_ne_nil {p : Char → Bool} :
    ∀ {l : List Char}, l.dropWhile p ≠ [] → (l.dropWhile p).getLast? = l.getLast? := by
  intro l
  induction l with
  | nil => intro h; simp [List.dropWhile] at h
  | cons a as ih =>
    intro h
    rw [List.dropWhile_cons] at h ⊢
    by_cases hp : p a = true
    · rw [if_pos hp] at h ⊢
      have has : as ≠ [] := by
        intro he; rw [he] at h; simp [List.dropWhile] at h
      obtain ⟨b, bs, rfl⟩ := List.exists_cons_of_ne_nil has
      rw [List.getLast?_cons_cons]
      exact ih h
    · rw [if_neg hp]

theorem mem_of_mem_dropWhile {α : Type _} {p : α → Bool} {l : List α} {a : α}
    (h : a ∈ l.dropWhile p) : a ∈ l :=
  (List.dropWhile_sublist p).subset h

theorem dropWhile_append_all {p : Char → Bool} {l r : List Char}
    (h : ∀ a ∈ l, p a = true) : (l ++ r).dropWhile p = r.dropWhile p := by
  rw [List.dropWhile_append]
  have : l.dropWhile p = [] := List.dropWhile_eq_nil_iff.mpr h
  rw [this]
  simp

theorem dropWhile_eq_self_of_head {p : Char → Bool} {l : List Char}
    (h : ∀ c, l.head? = some c → p c = false) : l.dropWhile p = l := by
  cases l with
  | nil => rfl
  | cons a as =>
    rw [List.dropWhile_cons, if_neg]
    intro hp
    exact absurd (h a (by rw [List.head?_cons])) (by simp [hp])

theorem pyStrip_nil : pyStrip [] = [] := rfl

theorem pyStrip_getLast?_not {l : List Char} {c : Char}
    (h : (pyStrip l).getLast? = some c) : isPySpace c = false := by
  unfold pyStrip at h
  rw [List.getLast?_reverse] at h
  exact head?_dropWhile_not h

theorem pyStrip_head?_not {l : List Char} {c : Char}
    (h : (pyStrip l).head? = some c) : isPySpace c = false := by
  unfold pyStrip at h
  rw [List.head?_reverse] at h
  by_cases hne : (l.dropWhile isPySpace).reverse.dropWhile isPySpace = []
  · rw [hne] at h; simp at h
  · rw [getLast?_dropWhile_ne_nil hne, List.getLast?_reverse] at h
    exact head?_dropWhile_not h

theorem pyStrip_eq_self {l : List Char}
    (hh : ∀ c, l.head? = some c → isPySpace c = false)
    (hl : ∀ c, l.getLast? = some c → isPySpace c = false) : pyStrip l = l := by
  unfold pyStrip
  rw [dropWhile_eq_self_of_head hh, dropWhile_eq_self_of_head, List.reverse_reverse]
  intro c hc
  rw [List.head?_reverse] at hc
  exact hl c hc

theorem pyStrip_idem (l : List Char) : pyStrip (pyStrip l) = pyStrip l :=
  pyStrip_eq_self (fun _ h => pyStrip_head?_not h) (fun _ h => pyStrip_getLast?_not h)

theorem pyStrip_eq_nil_iff {l : List Char} :
    pyStrip l = [] ↔ ∀ c ∈ l, isPySpace c = true := by
  unfold pyStrip
  constructor
  · intro h c hc
    rw [List.reverse_eq_nil_iff, List.dropWhile_eq_nil_iff] at h
    by_contra hns
    have h1 : (l.dropWhile isPySpace) ≠ [] := by
      intro he
      rw [List.dropWhile_eq_nil_iff] at he
      exact hns (he c hc)
    obtain ⟨d, ds, hd⟩ := List.exists_cons_of_ne_nil h1
    have hdns : isPySpace d = false := by
      have := head?_dropWhile_not (l := l) (p := isPySpace) (c := d)
      apply this; rw [hd, List.head?_cons]
    have : d ∈ (l.dropWhile isPySpace).reverse := by
      rw [List.mem_reverse, hd]; exact List.mem_cons_self d ds
    have := h d this
    rw [hdns] at this; exact Bool.false_ne_true this
  · intro h
    have h1 : l.dropWhile isPySpace = [] :=
      List.dropWhile_eq_nil_iff.mpr (fun x hx => h x hx)
    rw [h1]; rfl

theorem mem_pyStrip {l : List Char} {a : Char} (h : a ∈ pyStrip l) : a ∈ l := by
  unfold pyStrip at h
  rw [List.mem_reverse] at h
  have := mem_of_mem_dropWhile h
  rw [List.mem_reverse] at this
  exact mem_of_mem_dropWhile this

theorem pyStrip_ws_append {w l : List Char} (h : ∀ c ∈ w, isPySpace c = true) :
    pyStrip (w ++ l) = pyStrip l := by
  unfold pyStrip
  rw [dropWhile_append_all h]

theorem pyStrip_cons_head? {c : Char} {l : List Char} (h : isPySpace c = false) :
    (pyStrip (c :: l)).head? = some c := by
  unfold pyStrip
  rw [List.head?_reverse]
  have h1 : (c :: l).dropWhile isPySpace = c :: l := by
    rw [List.dropWhile_cons, if_neg (by simp [h])]
  rw [h1]
  have h2 : (c :: l).reverse.dropWhile isPySpace ≠ [] := by
    intro he
    rw [List.dropWhile_eq_nil_iff] at he
    have : c ∈ (c :: l).reverse := by
      rw [List.mem_reverse]; exact List.mem_cons_self c l
    have := he c this
    rw [h] at this; exact Bool.false_ne_true this
  rw [getLast?_dropWhile_ne_nil h2, List.getLast?_reverse, List.head?_cons]

theorem pyStrip_cons_ne_nil {c : Char} {l : List Char} (h : isPySpace c = false) :
    pyStrip (c :: l) ≠ [] := by
  intro he
  have := pyStrip_cons_head? (l := l) h
  rw [he] at this
  simp at this

/-! ### Inversion lemmas for the matchers -/

theorem isPrefixOf_head? {a : Char} {as s : List Char}
    (h : (a :: as).isPrefixOf s = true) : s.head? = some a := by
  cases s with
  | nil => simp [List.isPrefixOf] at h
  | cons b bs =>
    simp [List.isPrefixOf] at h
    rw [List.head?_cons, h.1]

theorem matchSubItem_some {line lead : List Char} {m : Char} {rest : List Char}
    (h : matchSubItem line = some (lead, m, rest)) :
    lead = line.takeWhile isPySpace ∧ (m = '*' ∨ m = '-') ∧
      ∃ w, w ≠ [] ∧ (∀ c ∈ w, isPySpace c = true) ∧
        line = lead ++ m :: w ++ rest := by
  unfold matchSubItem at h
  split at h
  · rename_i m' r2 hd
    split at h
    · rename_i hm
      split at h
      · simp at h
      · rename_i w0 ws hw
        simp only [Option.some_inj, Prod.mk.injEq] at h
        obtain ⟨hlead, hm', hrest⟩ := h
        subst hlead; subst hm'; subst hrest
        refine ⟨rfl, hm, r2.takeWhile isPySpace, ?_, ?_, ?_⟩
        · rw [hw]; simp
        · intro c hc; exact List.mem_takeWhile_imp hc
        · conv_lhs => rw [← List.takeWhile_append_dropWhile isPySpace line]
          rw [hd]
          simp [List.takeWhile_append_dropWhile]
    · rename_i hm
      simp at h
  · simp at h

theorem matchNumbered_head_not_digit {s : List Char} {c : Char}
    (hh : s.head? = some c) (hd : c.isDigit = false) : matchNumbered s = false := by
  cases s with
  | nil => simp at hh
  | cons a t =>
    rw [List.head?_cons, Option.some_inj] at hh
    subst hh
    unfold matchNumbered
    rw [List.takeWhile_cons, if_neg (by simp [hd])]

/-! ### Claims C1–C4: concrete evaluations of the pipeline -/

/-- The input witnessing the idempotence failure (claim C1). -/
def c1Input : List Char := "text\n  * item\nActionable Recommendations:\n".toList

/-- Claim C1 (code bug): `transform_content` is NOT idempotent.  On
`"text\n  * item\nActionable Recommendations:\n"` the first application
carries pass 1's final ActionableRecommendations state into pass 2 and
normalizes the leading bullet to `"    * item"`; the second application
starts pass 2 in state None there and trims it to `"* item"`, so the two
results differ. -/
theorem c1_idempotence_fails :
    transform_content (transform_content c1Input) ≠ transform_content c1Input := by
  decide

/-- The end-to-end input of claim C2. -/
def c2Input : List Char := "File Path: a.md\nOverall Assessment:\nLooks fine.\n".toList

/-- The output the spec claims for C2 (with a blank line between headings). -/
def c2Claimed : List Char :=
  "## File Path: `a.md`\n\n## Overall Assessment\nLooks fine.".toList

/-- The output the code actually produces for C2 (no blank line). -/
def c2Actual : List Char :=
  "## File Path: `a.md`\n## Overall Assessment\nLooks fine.".toList

/-- Claim C2, counterexample: the output is not the spec's claimed string —
the pipeline never inserts a blank line between the File Path heading and
the Overall Assessment heading. -/
theorem c2_counterexample : transform_content c2Input ≠ c2Claimed := by
  decide

/-- Claim C2, amended: the exact output is
`"## File Path: `a.md`\n## Overall Assessment\nLooks fine."`, with NO blank
line between the two headings (the pipeline only collapses blank lines, it
never inserts any). -/
theorem c2_amended_output : transform_content c2Input = c2Actual := by
  decide

/-- The input witnessing the cross-pass state carry-over (claim C3). -/
def c3Input : List Char := "intro\n  * item\nActionable Recommendations:\n".toList

/-- Claim C3 (code bug): pass 2 does NOT begin with section state None — it
begins with the state pass 1 ended in.  Here pass 1 ends in
ActionableRecommendations, so pass 2 normalizes the leading `"  * item"`
(which precedes every recognized label) to `"    * item"` instead of the
verbatim trimmed `"* item"` that per-pass state independence would give. -/
theorem c3_state_carryover :
    transform_content c3Input =
      "intro\n    * item\n## Actionable Recommendations".toList ∧
    transform_content c3Input ≠
      "intro\n* item\n## Actionable Recommendations".toList := by
  constructor
  · decide
  · decide

/-- The input of claim C4: a File Path line between a Key Findings label and
a `"* Title:"` line. -/
def c4Input : List Char := "Key Findings and Suggestions:\nFile Path: p\n* Title:".toList

/-- Claim C4, counterexample: pass 1 DOES rewrite `"* Title:"` to
`"### Title"` even though a `"File Path: p"` line intervenes after the
Key Findings label — the File Path branch of pass 1 does not reset the
section state. -/
theorem c4_counterexample :
    "### Title".toList ∈ (pass1Run false false (pySplitlines c4Input)).2 := by
  decide

/-- The raw line `"File Path: p"`. -/
def fpPLine : List Char := "File Path: p".toList

/-- The raw line `"* Title:"`. -/
def titleLine : List Char := "* Title:".toList

/-- The emitted heading `"## File Path: `p`"`. -/
def fpPH2 : List Char := "## File Path: `p`".toList

/-- The emitted heading `"### Title"`. -/
def titleH3 : List Char := "### Title".toList

/-- Claim C4, amended: in pass 1 the File Path branch emits its H2 heading
but leaves the section state unchanged, so after a
`"Key Findings and Suggestions:"` label a subsequent `"* Title:"` line IS
rewritten to `"### Title"` even when a `"File Path: <path>"` line
intervenes (no further Key Findings label needed). -/
theorem c4_amended (rest : List (List Char)) :
    ((pass1Run false false (kfRaw :: fpPLine :: titleLine :: rest)).2).take 3 =
      [kfH2, fpPH2, titleH3] := by
  have h1 : pass1Step false false kfRaw = ((true, false), kfH2) := by decide
  have h2 : pass1Step true false fpPLine = ((true, false), fpPH2) := by decide
  have h3 : pass1Step true false titleLine = ((true, false), titleH3) := by decide
  rcases hp : pass1Run true false rest with ⟨st', outs⟩
  simp [pass1Run, h1, h2, h3, hp]

/-! ### Claim C5: Actionable-Recommendations sub-item normalization -/

/-- Claim C5: under the ActionableRecommendations section, a line matched by
the sub-item pattern (leading whitespace `lead`, marker `m` in `*`/`-`, one
or more whitespace characters, rest) is emitted as
4 spaces + marker + space + stripped rest when `1 ≤ lead.length < 8`, as
original leading whitespace + marker + space + stripped rest when
`8 ≤ lead.length`, and falls through to the trimmed-passthrough default when
`lead.length = 0`.  (Such a line never matches the numbered-item rule, since
its first non-blank character is the marker.) -/
theorem c5_ar_subitem (line lead : List Char) (m : Char) (rest : List Char)
    (h3 : Bool) (acc : List (List Char))
    (hm : matchSubItem line = some (lead, m, rest)) :
    pass2Step false true h3 acc line =
      ((false, true, h3),
       if 1 ≤ lead.length then
         (if 8 ≤ lead.length then acc ++ [lead ++ m :: ' ' :: pyStrip rest]
          else acc ++ ["    ".toList ++ m :: ' ' :: pyStrip rest])
       else acc ++ [pyStrip line]) := by
  obtain ⟨hlead, hmk, w, hwne, hwall, hline⟩ := matchSubItem_some hm
  have hmns : isPySpace m = false := by
    rcases hmk with rfl | rfl <;> decide
  have hleadws : ∀ c ∈ lead, isPySpace c = true := by
    intro c hc; rw [hlead] at hc; exact List.mem_takeWhile_imp hc
  have hs : (pyStrip line).head? = some m := by
    rw [hline, List.append_assoc, List.cons_append, pyStrip_ws_append hleadws]
    exact pyStrip_cons_head? hmns
  have hmh : m ≠ '#' := by
    rcases hmk with rfl | rfl <;> decide
  have hne1 : pyStrip line ≠ kfH2 := by
    intro he; rw [he] at hs
    have : m = '#' := by
      have : kfH2.head? = some '#' := by decide
      rw [this] at hs; exact (Option.some_inj.mp hs).symm
    exact hmh this
  have hne2 : pyStrip line ≠ arH2 := by
    intro he; rw [he] at hs
    have : m = '#' := by
      have : arH2.head? = some '#' := by decide
      rw [this] at hs; exact (Option.some_inj.mp hs).symm
    exact hmh this
  have hne3 : h2Marker.isPrefixOf (pyStrip line) = false := by
    cases hp : h2Marker.isPrefixOf (pyStrip line) with
    | false => rfl
    | true =>
      have hcons : h2Marker = '#' :: "# ".toList := by decide
      rw [hcons] at hp
      have := isPrefixOf_head? hp
      rw [hs] at this
      exact absurd (Option.some_inj.mp this) hmh
  have hne4 : h3Marker.isPrefixOf (pyStrip line) = false := by
    cases hp : h3Marker.isPrefixOf (pyStrip line) with
    | false => rfl
    | true =>
      have hcons : h3Marker = '#' :: "## ".toList := by decide
      rw [hcons] at hp
      have := isPrefixOf_head? hp
      rw [hs] at this
      exact absurd (Option.some_inj.mp this) hmh
  have hnum : matchNumbered (pyStrip line) = false := by
    apply matchNumbered_head_not_digit hs
    rcases hmk with rfl | rfl <;> decide
  have hsne : pyStrip line ≠ [] := by
    intro he; rw [he] at hs; simp at hs
  unfold pass2Step
  rw [if_neg hne1, if_neg hne2,
      if_neg (by rw [hne3]; exact Bool.false_ne_true),
      if_neg (by rw [hne4]; exact Bool.false_ne_true)]
  unfold pass2Emit pass2Default
  simp [hnum, hm, hsne]

/-- Witness for C5: the line `"  * a"` (indent 2) is normalized to
`"    * a"`. -/
theorem c5_witness :
    matchSubItem "  * a".toList = some ("  ".toList, '*', "a".toList) ∧
      pass2Step false true false [] "  * a".toList =
        ((false, true, false), ["    * a".toList]) := by
  constructor
  · decide
  · rw [c5_ar_subitem "  * a".toList "  ".toList '*' "a".toList false [] (by decide)]
    decide

/-! ### Claim C9: whitespace-only input -/

theorem mem_pySplitlines_subset :
    ∀ {s : List Char} {l : List Char}, l ∈ pySplitlines s → ∀ c ∈ l, c ∈ s := by
  intro s
  induction s with
  | nil => intro l hl; simp [pySplitlines] at hl
  | cons a as ih =>
    intro l hl c hc
    unfold pySplitlines at hl
    by_cases ha : a = '\n'
    · rw [if_pos ha] at hl
      rcases List.mem_cons.mp hl with rfl | hl'
      · simp at hc
      · exact List.mem_cons_of_mem a (ih hl' c hc)
    · rw [if_neg ha] at hl
      cases hp : pySplitlines as with
      | nil =>
        rw [hp] at hl
        simp at hl
        subst hl
        simp at hc
        subst hc
        exact List.mem_cons_self _ _
      | cons h t =>
        rw [hp] at hl
        rcases List.mem_cons.mp hl with rfl | hl'
        · rcases List.mem_cons.mp hc with rfl | hc'
          · exact List.mem_cons_self _ _
          · have : h ∈ pySplitlines as := by rw [hp]; exact List.mem_cons_self _ _
            exact List.mem_cons_of_mem a (ih this c hc')
        · have : l ∈ pySplitlines as := by rw [hp]; exact List.mem_cons_of_mem h hl'
          exact List.mem_cons_of_mem a (ih this c hc)

theorem pass1Step_blank {kf ar : Bool} {line : List Char}
    (h : pyStrip line = []) : pass1Step kf ar line = ((kf, ar), line) := by
  unfold pass1Step
  rw [h]
  rw [if_neg (by decide), if_neg (by decide), if_neg (by decide), if_neg (by decide)]
  cases kf with
  | false => rw [if_neg Bool.false_ne_true]
  | true =>
    rw [if_pos rfl]
    rfl

theorem pass1Run_blank :
    ∀ {lines : List (List Char)} {kf ar : Bool},
      (∀ l ∈ lines, pyStrip l = []) → pass1Run kf ar lines = ((kf, ar), lines) := by
  intro lines
  induction lines with
  | nil => intro kf ar _; rfl
  | cons l ls ih =>
    intro kf ar h
    have hl : pyStrip l = [] := h l (List.mem_cons_self l ls)
    have hls : ∀ x ∈ ls, pyStrip x = [] := fun x hx => h x (List.mem_cons_of_mem l hx)
    unfold pass1Run
    rw [pass1Step_blank hl]
    simp [ih hls]

theorem pass2Step_blank {acc : List (List Char)} {line : List Char}
    (h : pyStrip line = []) :
    pass2Step false false false acc line =
      ((false, false, false), if emitBlankOk acc then acc ++ [[]] else acc) := by
  unfold pass2Step
  rw [h]
  rw [if_neg (by decide), if_neg (by decide),
      if_neg (by decide), if_neg (by decide)]
  unfold pass2Emit
  rw [Bool.false_and]
  simp only [Bool.false_and, if_neg Bool.false_ne_true]
  unfold pass2Default
  simp

theorem pass2Run_blank :
    ∀ {lines : List (List Char)} {acc : List (List Char)},
      (∀ l ∈ lines, pyStrip l = []) → (∀ x ∈ acc, pyStrip x = []) →
      ∀ x ∈ pass2Run false false false acc lines, pyStrip x = [] := by
  intro lines
  induction lines with
  | nil => intro acc _ hacc x hx; exact hacc x hx
  | cons l ls ih =>
    intro acc h hacc x hx
    have hl : pyStrip l = [] := h l (List.mem_cons_self l ls)
    have hls : ∀ y ∈ ls, pyStrip y = [] := fun y hy => h y (List.mem_cons_of_mem l hy)
    unfold pass2Run at hx
    rw [pass2Step_blank hl] at hx
    by_cases he : emitBlankOk acc = true
    · rw [if_pos he] at hx
      refine ih hls ?_ x hx
      intro y hy
      rcases List.mem_append.mp hy with hy' | hy'
      · exact hacc y hy'
      · simp at hy'; subst hy'; rfl
    · rw [if_neg he] at hx
      exact ih hls hacc x hx

theorem dropLeadingBlanks_all_blank {ls : List (List Char)}
    (h : ∀ x ∈ ls, pyStrip x = []) : dropLeadingBlanks ls = [] := by
  cases ls with
  | nil => rfl
  | cons l rest =>
    simp only [dropLeadingBlanks]
    rw [if_pos (h l (List.mem_cons_self l rest))]
    apply List.dropWhile_eq_nil_iff.mpr
    intro x hx
    simp [h x (List.mem_cons_of_mem l hx)]

/-- Claim C9: a whitespace-only input (including the empty string) produces
the empty output: every line is blank, pass 2 emits at most one blank line,
and the leading-blank removal deletes it. -/
theorem c9_whitespace_empty (content : List Char)
    (h : ∀ c ∈ content, isPySpace c = true) : transform_content content = [] := by
  have hlines : ∀ l ∈ pySplitlines content, pyStrip l = [] := by
    intro l hl
    exact pyStrip_eq_nil_iff.mpr (fun c hc => h c (mem_pySplitlines_subset hl c hc))
  unfold transform_content
  rw [pass1Run_blank hlines]
  have hproc : ∀ x ∈ pass2Run false false false [] (pySplitlines content), pyStrip x = [] :=
    pass2Run_blank hlines (by intro x hx; simp at hx)
  simp only [dropLeadingBlanks_all_blank hproc]
  decide

/-- Witness for C9 at the concrete whitespace-only input `" \n\t \n"`. -/
theorem c9_witness :
    (∀ c ∈ " \n\t \n".toList, isPySpace c = true) ∧
      transform_content " \n\t \n".toList = [] :=
  ⟨by decide, c9_whitespace_empty " \n\t \n".toList (by decide)⟩

/-! ### Claim C8: the already-transformed detector -/

theorem checkScan_iff :
    ∀ ls : List (List Char),
      checkScan ls = true ↔
        ∃ l, ls.find? (fun x => !(pyStrip x).isEmpty) = some l ∧
          fpTransformed.isPrefixOf (pyStrip l) = true := by
  intro ls
  induction ls with
  | nil => simp [checkScan]
  | cons l rest ih =>
    by_cases hb : pyStrip l = []
    · have hpred : (!(pyStrip l).isEmpty) = false := by
        rw [hb]; rfl
      unfold checkScan
      rw [if_pos hb,
        List.find?_cons_of_neg _ (by rw [hpred]; exact Bool.false_ne_true)]
      exact ih
    · have hpred : (!(pyStrip l).isEmpty) = true := by
        cases hps : pyStrip l with
        | nil => exact absurd hps hb
        | cons a t => rfl
      unfold checkScan
      rw [if_neg hb,
        @List.find?_cons_of_pos _ (fun x => !(pyStrip x).isEmpty) l rest hpred]
      constructor
      · intro h; exact ⟨l, rfl, h⟩
      · rintro ⟨l', hl', h⟩
        rw [Option.some_inj] at hl'
        subst hl'
        exact h

/-- Claim C8: `check_if_transformed` returns true iff the document was read
successfully and its first non-blank line starts with `"## File Path: `"`;
in particular it returns false on a read failure (`none`), on a document
with no non-blank line (including the empty document), and when the first
non-blank line does not match. -/
theorem c8_detector (doc : Option (List Char)) :
    check_if_transformed doc = true ↔
      ∃ content l, doc = some content ∧
        (pySplitlines content).find? (fun x => !(pyStrip x).isEmpty) = some l ∧
        fpTransformed.isPrefixOf (pyStrip l) = true := by
  cases doc with
  | none => simp [check_if_transformed]
  | some content =>
    unfold check_if_transformed
    rw [checkScan_iff]
    constructor
    · rintro ⟨l, h1, h2⟩; exact ⟨content, l, rfl, h1, h2⟩
    · rintro ⟨c, l, hc, h1, h2⟩
      rw [Option.some_inj] at hc
      subst hc
      exact ⟨l, h1, h2⟩

/-! ### Claim C6: no three consecutive newlines in the output -/

/-- Does the string contain three consecutive `'\n'` characters? -/
def hasTriple : List Char → Bool
  | a :: b :: c :: rest => (a = '\n' && b = '\n' && c = '\n') || hasTriple (b :: c :: rest)
  | _ => false

theorem hasTriple_cons_of_ne {c : Char} {l : List Char} (hc : c ≠ '\n')
    (h : hasTriple l = false) : hasTriple (c :: l) = false := by
  cases l with
  | nil => rfl
  | cons x t =>
    cases t with
    | nil => rfl
    | cons y r =>
      unfold hasTriple
      rw [h]
      simp [hc]

theorem hasTriple_nl_cons {l : List Char}
    (hl : ∀ x t, l = x :: t → x ≠ '\n')
    (h : hasTriple l = false) : hasTriple ('\n' :: l) = false := by
  cases l with
  | nil => rfl
  | cons x t =>
    have hx : x ≠ '\n' := hl x t rfl
    cases t with
    | nil => simp [hasTriple, hx]
    | cons y r =>
      unfold hasTriple
      rw [h]
      simp [hx]

theorem hasTriple_nl_nl_cons {l : List Char}
    (hl : ∀ x t, l = x :: t → x ≠ '\n')
    (h : hasTriple l = false) : hasTriple ('\n' :: '\n' :: l) = false := by
  cases l with
  | nil => rfl
  | cons x t =>
    have hx : x ≠ '\n' := hl x t rfl
    unfold hasTriple
    rw [hasTriple_nl_cons hl h]
    simp [hx]

theorem hasTriple_emitRun_nil (n : Nat) : hasTriple (emitRun n []) = false := by
  unfold emitRun
  by_cases h3 : 3 ≤ n
  · rw [if_pos h3]; rfl
  · rw [if_neg h3]
    interval_cases n <;> rfl

theorem hasTriple_emitRun_cons {c : Char} {Y : List Char} (n : Nat)
    (hc : c ≠ '\n') (h : hasTriple Y = false) :
    hasTriple (emitRun n (c :: Y)) = false := by
  have hcY : hasTriple (c :: Y) = false := hasTriple_cons_of_ne hc h
  have hhead : ∀ x t, c :: Y = x :: t → x ≠ '\n' := by
    intro x t hxt
    injection hxt with h1 _
    rw [← h1]; exact hc
  unfold emitRun
  by_cases h3 : 3 ≤ n
  · rw [if_pos h3]
    exact hasTriple_nl_nl_cons hhead hcY
  · rw [if_neg h3]
    interval_cases n
    · exact hcY
    · exact hasTriple_nl_cons hhead hcY
    · exact hasTriple_nl_nl_cons hhead hcY

theorem hasTriple_collapseGo :
    ∀ (l : List Char) (n : Nat), hasTriple (collapseGo n l) = false := by
  intro l
  induction l with
  | nil => intro n; exact hasTriple_emitRun_nil n
  | cons c cs ih =>
    intro n
    unfold collapseGo
    by_cases hc : c = '\n'
    · rw [if_pos hc]; exact ih (n + 1)
    · rw [if_neg hc]; exact hasTriple_emitRun_cons n hc (ih 0)

/-- Unfolding of `transform_content` as a plain composition. -/
theorem transform_content_def (content : List Char) :
    transform_content content =
      collapseRuns (pyStrip (joinNL (dedupBlanks [] (dropLeadingBlanks
        (pass2Run (pass1Run false false (pySplitlines content)).1.1
          (pass1Run false false (pySplitlines content)).1.2 false []
          (pass1Run false false (pySplitlines content)).2))))) := by
  cases hp : pass1Run false false (pySplitlines content) with
  | mk st1 temp =>
    unfold transform_content
    rw [hp]

/-- Claim C6: the final output of `transform_content` never contains three
or more consecutive newline characters (the closing
`re.sub(r'\n{3,}', '\n\n', …)` guarantees it). -/
theorem c6_no_triple_newline (content : List Char) :
    hasTriple (transform_content content) = false := by
  rw [transform_content_def]
  unfold collapseRuns
  exact hasTriple_collapseGo _ 0

/-! ### Claim C7: the output equals its own stripped form -/

theorem collapseGo_ne_nil :
    ∀ {l : List Char}, l ≠ [] → ∀ n, collapseGo n l ≠ [] := by
  intro l
  induction l with
  | nil => intro h; exact absurd rfl h
  | cons a cs ih =>
    intro _ n
    unfold collapseGo
    by_cases ha : a = '\n'
    · rw [if_pos ha]
      cases cs with
      | nil =>
        unfold collapseGo emitRun
        by_cases h3 : 3 ≤ n + 1
        · rw [if_pos h3]; simp
        · rw [if_neg h3, List.replicate_succ]; simp
      | cons b bs => exact ih (by simp) (n + 1)
    · rw [if_neg ha]
      unfold emitRun
      simp

theorem collapseGo_cons_of_ne {c : Char} {cs : List Char} (hc : c ≠ '\n') :
    collapseGo 0 (c :: cs) = c :: collapseGo 0 cs := by
  conv_lhs => rw [collapseGo]
  rw [if_neg hc]
  unfold emitRun
  simp

theorem collapseGo_getLast? :
    ∀ {l : List Char} (n : Nat) {c : Char}, l.getLast? = some c →
      isPySpace c = false → (collapseGo n l).getLast? = some c := by
  intro l
  induction l with
  | nil => intro n c h _; simp at h
  | cons a cs ih =>
    intro n c h hns
    unfold collapseGo
    by_cases ha : a = '\n'
    · rw [if_pos ha]
      cases cs with
      | nil =>
        rw [List.getLast?_singleton, Option.some_inj] at h
        rw [← h, ha] at hns
        simp [isPySpace] at hns
      | cons b bs =>
        rw [List.getLast?_cons_cons] at h
        exact ih (n + 1) h hns
    · rw [if_neg ha]
      cases cs with
      | nil =>
        rw [List.getLast?_singleton, Option.some_inj] at h
        subst h
        unfold emitRun
        exact List.getLast?_concat _
      | cons b bs =>
        rw [List.getLast?_cons_cons] at h
        have hY := ih 0 h hns
        unfold emitRun
        rw [List.getLast?_append]
        have hne : collapseGo 0 (b :: bs) ≠ [] := collapseGo_ne_nil (by simp) 0
        obtain ⟨y, ys, hy⟩ := List.exists_cons_of_ne_nil hne
        rw [hy] at hY ⊢
        rw [List.getLast?_cons_cons, hY]
        rfl

theorem pyStrip_collapseRuns_pyStrip (x : List Char) :
    pyStrip (collapseRuns (pyStrip x)) = collapseRuns (pyStrip x) := by
  cases hS : pyStrip x with
  | nil => rfl
  | cons d t =>
    have hd : isPySpace d = false := by
      apply pyStrip_head?_not (l := x)
      rw [hS, List.head?_cons]
    have hdn : d ≠ '\n' := by
      intro he
      rw [he] at hd
      simp [isPySpace] at hd
    cases hgl : (d :: t).getLast? with
    | none => rw [List.getLast?_eq_none_iff] at hgl; simp at hgl
    | some c =>
      have hcns : isPySpace c = false := by
        apply pyStrip_getLast?_not (l := x)
        rw [hS]; exact hgl
      have h1 : collapseRuns (d :: t) = d :: collapseGo 0 t := collapseGo_cons_of_ne hdn
      have h2 : (collapseRuns (d :: t)).getLast? = some c :=
        collapseGo_getLast? 0 hgl hcns
      apply pyStrip_eq_self
      · intro e he
        rw [h1, List.head?_cons, Option.some_inj] at he
        rw [← he]; exact hd
      · intro e he
        rw [h2, Option.some_inj] at he
        rw [← he]; exact hcns

/-- Claim C7: the output of `transform_content` equals itself with leading
and trailing whitespace stripped — it neither starts nor ends with
whitespace (the final `strip` establishes this and the newline collapse
preserves it). -/
theorem c7_output_stripped (content : List Char) :
    pyStrip (transform_content content) = transform_content content := by
  rw [transform_content_def]
  exact pyStrip_collapseRuns_pyStrip _

/-! ### Claim C10: no output line has a raw-label trimmed form

`SafeLine l` says the trimmed form of `l` is none of the three raw labels
and does not start with `"File Path: "`. -/

/-- The trimmed form of the line is not a raw label and does not start with
`"File Path: "`. -/
def SafeLine (l : List Char) : Prop :=
  pyStrip l ≠ oaRaw ∧ pyStrip l ≠ kfRaw ∧ pyStrip l ≠ arRaw ∧
    fpLabel.isPrefixOf (pyStrip l) = false

instance safeLineDec (l : List Char) : Decidable (SafeLine l) := by
  unfold SafeLine
  infer_instance

theorem safeLine_of_head?_ne {l : List Char} {c : Char}
    (h : (pyStrip l).head? = some c)
    (hO : c ≠ 'O') (hK : c ≠ 'K') (hA : c ≠ 'A') (hF : c ≠ 'F') : SafeLine l := by
  refine ⟨?_, ?_, ?_, ?_⟩
  · intro he; rw [he] at h
    have : oaRaw.head? = some 'O' := by decide
    rw [this, Option.some_inj] at h; exact hO h.symm
  · intro he; rw [he] at h
    have : kfRaw.head? = some 'K' := by decide
    rw [this, Option.some_inj] at h; exact hK h.symm
  · intro he; rw [he] at h
    have : arRaw.head? = some 'A' := by decide
    rw [this, Option.some_inj] at h; exact hA h.symm
  · cases hp : fpLabel.isPrefixOf (pyStrip l) with
    | false => rfl
    | true =>
      have hcons : fpLabel = 'F' :: "ile Path: ".toList := by decide
      rw [hcons] at hp
      have := isPrefixOf_head? hp
      rw [h, Option.some_inj] at this
      exact absurd this hF

theorem safeLine_of_pyStrip_nil {l : List Char} (h : pyStrip l = []) : SafeLine l := by
  refine ⟨?_, ?_, ?_, ?_⟩ <;> rw [h] <;> decide

theorem safeLine_of_eq {a b : List Char} (h : pyStrip a = pyStrip b)
    (hb : SafeLine b) : SafeLine a := by
  unfold SafeLine at hb ⊢
  rw [h]
  exact hb

theorem safeLine_pyStrip {l : List Char} (h : SafeLine l) : SafeLine (pyStrip l) :=
  safeLine_of_eq (pyStrip_idem l) h

theorem safeLine_hash {l : List Char} (h : (pyStrip l).head? = some '#') :
    SafeLine l :=
  safeLine_of_head?_ne h (by decide) (by decide) (by decide) (by decide)

theorem pyStrip_append_cons_head? {c : Char} {t l : List Char}
    (hc : isPySpace c = false) : (pyStrip (c :: t ++ l)).head? = some c := by
  rw [List.cons_append]
  exact pyStrip_cons_head? hc

theorem matchH3_subset {s text : List Char} (h : matchH3 s = some text) :
    ∀ c ∈ text, c ∈ s := by
  unfold matchH3 at h
  split at h
  · rename_i c rest
    split at h
    · rw [Option.some_inj] at h
      subst h
      intro x hx
      have hx1 := mem_pyStrip hx
      have hx2 := (List.dropLast_sublist (c :: rest)).subset hx1
      exact List.mem_cons_of_mem _ hx2
    · simp at h
  · simp at h

theorem matchKFItem_subset {line item : List Char}
    (h : matchKFItem line = some item) : ∀ c ∈ item, c ∈ line := by
  unfold matchKFItem at h
  split at h
  · rename_i r2 hd
    split at h
    · split at h
      · simp at h
      · rw [Option.some_inj] at h
        subst h
        intro x hx
        have hx1 := mem_of_mem_dropWhile hx
        have hx2 : x ∈ line.dropWhile isPySpace := by
          rw [hd]; exact List.mem_cons_of_mem _ hx1
        exact mem_of_mem_dropWhile hx2
    · simp at h
  · simp at h

theorem pass1Step_good (kf ar : Bool) (line : List Char) (hnl : '\n' ∉ line) :
    SafeLine (pass1Step kf ar line).2 ∧ '\n' ∉ (pass1Step kf ar line).2 := by
  have hnl' : '\n' ∉ pyStrip line := fun hm => hnl (mem_pyStrip hm)
  unfold pass1Step
  by_cases h1 : fpLabel.isPrefixOf (pyStrip line) = true
  · rw [if_pos h1]
    constructor
    · apply safeLine_hash
      have hc : "## File Path: `".toList = '#' :: "# File Path: `".toList := by decide
      rw [hc, List.cons_append, List.cons_append]
      exact pyStrip_cons_head? (by decide)
    · intro hm
      rcases List.mem_append.mp hm with hm' | hm'
      · rcases List.mem_append.mp hm' with hm'' | hm''
        · exact absurd hm'' (by decide)
        · exact hnl' (List.mem_of_mem_drop (mem_pyStrip hm''))
      · exact absurd hm' (by decide)
  · rw [if_neg h1]
    by_cases h2 : pyStrip line = oaRaw
    · rw [if_pos h2]; exact ⟨by decide, by decide⟩
    · rw [if_neg h2]
      by_cases h3 : pyStrip line = kfRaw
      · rw [if_pos h3]; exact ⟨by decide, by decide⟩
      · rw [if_neg h3]
        by_cases h4 : pyStrip line = arRaw
        · rw [if_pos h4]; exact ⟨by decide, by decide⟩
        · rw [if_neg h4]
          have hsafe : SafeLine line :=
            ⟨h2, h3, h4, by cases hp : fpLabel.isPrefixOf (pyStrip line) with
              | false => rfl
              | true => exact absurd hp h1⟩
          cases kf with
          | false => rw [if_neg Bool.false_ne_true]; exact ⟨hsafe, hnl⟩
          | true =>
            rw [if_pos rfl]
            cases hm : matchH3 (pyStrip line) with
            | none => exact ⟨hsafe, hnl⟩
            | some text =>
              refine ⟨?_, ?_⟩
              · apply safeLine_hash
                show (pyStrip (h3Marker ++ text)).head? = some '#'
                have hc : h3Marker = '#' :: "## ".toList := by decide
                rw [hc, List.cons_append]
                exact pyStrip_cons_head? (by decide)
              · show '\n' ∉ h3Marker ++ text
                intro hmem
                rcases List.mem_append.mp hmem with hm' | hm'
                · exact absurd hm' (by decide)
                · exact hnl' (matchH3_subset hm _ hm')

theorem pass1Run_cons (kf ar : Bool) (l : List Char) (ls : List (List Char)) :
    pass1Run kf ar (l :: ls) =
      ((pass1Run (pass1Step kf ar l).1.1 (pass1Step kf ar l).1.2 ls).1,
        (pass1Step kf ar l).2 ::
          (pass1Run (pass1Step kf ar l).1.1 (pass1Step kf ar l).1.2 ls).2) := by
  cases hs : pass1Step kf ar l with
  | mk st out =>
    cases st with
    | mk kf' ar' =>
      conv_lhs => rw [pass1Run]
      rw [hs]

theorem pass1Run_good :
    ∀ (lines : List (List Char)) (kf ar : Bool),
      (∀ l ∈ lines, '\n' ∉ l) →
      ∀ l ∈ (pass1Run kf ar lines).2, SafeLine l ∧ '\n' ∉ l := by
  intro lines
  induction lines with
  | nil => intro kf ar _ l hl; simp [pass1Run] at hl
  | cons x xs ih =>
    intro kf ar hnl l hl
    rw [pass1Run_cons] at hl
    rcases List.mem_cons.mp hl with rfl | hl'
    · exact pass1Step_good kf ar x (hnl x (List.mem_cons_self _ _))
    · exact ih _ _ (fun y hy => hnl y (List.mem_cons_of_mem x hy)) l hl'

theorem good_append {acc : List (List Char)} {e : List Char}
    (hacc : ∀ x ∈ acc, SafeLine x ∧ '\n' ∉ x) (he : SafeLine e ∧ '\n' ∉ e) :
    ∀ x ∈ acc ++ [e], SafeLine x ∧ '\n' ∉ x := by
  intro x hx
  rcases List.mem_append.mp hx with h | h
  · exact hacc x h
  · rw [List.mem_singleton] at h; subst h; exact he

theorem goodLine_nil : SafeLine ([] : List Char) ∧ '\n' ∉ ([] : List Char) :=
  ⟨safeLine_of_pyStrip_nil rfl, by decide⟩

theorem safeLine_ws_marker {lead tail : List Char} {m : Char}
    (hm : m = '*' ∨ m = '-') (hlead : ∀ c ∈ lead, isPySpace c = true) :
    SafeLine (lead ++ m :: tail) := by
  have hmns : isPySpace m = false := by rcases hm with rfl | rfl <;> decide
  have hh : (pyStrip (lead ++ m :: tail)).head? = some m := by
    rw [pyStrip_ws_append hlead]
    exact pyStrip_cons_head? hmns
  rcases hm with rfl | rfl
  · exact safeLine_of_head?_ne hh (by decide) (by decide) (by decide) (by decide)
  · exact safeLine_of_head?_ne hh (by decide) (by decide) (by decide) (by decide)

theorem pass2Default_good {acc : List (List Char)} {s : List Char}
    (hacc : ∀ x ∈ acc, SafeLine x ∧ '\n' ∉ x) (hgs : SafeLine s ∧ '\n' ∉ s) :
    ∀ x ∈ pass2Default acc s, SafeLine x ∧ '\n' ∉ x := by
  unfold pass2Default
  by_cases h : s ≠ []
  · rw [if_pos h]; exact good_append hacc hgs
  · rw [if_neg h]
    by_cases he : emitBlankOk acc = true
    · rw [if_pos he]; exact good_append hacc goodLine_nil
    · rw [if_neg he]; exact hacc

theorem pass2Emit_good (kf ar h3 : Bool) (acc : List (List Char)) (line : List Char)
    (hline : SafeLine line ∧ '\n' ∉ line)
    (hacc : ∀ x ∈ acc, SafeLine x ∧ '\n' ∉ x) :
    ∀ x ∈ pass2Emit kf ar h3 acc line (pyStrip line), SafeLine x ∧ '\n' ∉ x := by
  have hgs : SafeLine (pyStrip line) ∧ '\n' ∉ pyStrip line :=
    ⟨safeLine_pyStrip hline.1, fun hm => hline.2 (mem_pyStrip hm)⟩
  unfold pass2Emit
  cases hscrut : (if kf && h3 then matchKFItem line else none) with
  | some item =>
    have hki : matchKFItem line = some item := by
      by_cases hkh : (kf && h3) = true
      · rw [if_pos hkh] at hscrut; exact hscrut
      · rw [if_neg hkh] at hscrut; exact absurd hscrut (by simp)
    apply good_append hacc
    constructor
    · exact @safeLine_ws_marker [] (' ' :: pyStrip item) '-' (Or.inr rfl)
        (by intro c hc; simp at hc)
    · intro hmem
      rcases List.mem_cons.mp hmem with h | h
      · exact absurd h (by decide)
      · rcases List.mem_cons.mp h with h' | h'
        · exact absurd h' (by decide)
        · exact hline.2 (matchKFItem_subset hki _ (mem_pyStrip h'))
  | none =>
    by_cases hn : (ar && matchNumbered (pyStrip line)) = true
    · rw [if_pos hn]; exact good_append hacc hgs
    · rw [if_neg hn]
      cases hsub : (if ar then matchSubItem line else none) with
      | some t3 =>
        obtain ⟨lead, m, rest⟩ := t3
        have hsi : matchSubItem line = some (lead, m, rest) := by
          by_cases har : ar = true
          · rw [if_pos har] at hsub; exact hsub
          · rw [if_neg har] at hsub; exact absurd hsub (by simp)
        obtain ⟨hleadeq, hmk, w, hwne, hwall, hlineeq⟩ := matchSubItem_some hsi
        have hleadws : ∀ c ∈ lead, isPySpace c = true := by
          intro c hc; rw [hleadeq] at hc; exact List.mem_takeWhile_imp hc
        have hleadline : ∀ c ∈ lead, c ∈ line := by
          intro c hc; rw [hlineeq]
          exact List.mem_append.mpr (Or.inl (List.mem_append.mpr (Or.inl hc)))
        have hrestline : ∀ c ∈ rest, c ∈ line := by
          intro c hc; rw [hlineeq]
          exact List.mem_append.mpr (Or.inr hc)
        have hmnl : m ≠ '\n' := by rcases hmk with rfl | rfl <;> decide
        show ∀ x ∈ (if 1 ≤ lead.length then
            (if 8 ≤ lead.length then acc ++ [lead ++ m :: ' ' :: pyStrip rest]
             else acc ++ ["    ".toList ++ m :: ' ' :: pyStrip rest])
          else pass2Default acc (pyStrip line)), SafeLine x ∧ '\n' ∉ x
        by_cases hl1 : 1 ≤ lead.length
        · rw [if_pos hl1]
          by_cases hl8 : 8 ≤ lead.length
          · rw [if_pos hl8]
            apply good_append hacc
            constructor
            · exact safeLine_ws_marker hmk hleadws
            · intro hm'
              rcases List.mem_append.mp hm' with h | h
              · exact hline.2 (hleadline _ h)
              · rcases List.mem_cons.mp h with h' | h'
                · exact hmnl h'.symm
                · rcases List.mem_cons.mp h' with h'' | h''
                  · exact absurd h'' (by decide)
                  · exact hline.2 (hrestline _ (mem_pyStrip h''))
          · rw [if_neg hl8]
            apply good_append hacc
            constructor
            · exact safeLine_ws_marker hmk (by decide)
            · intro hm'
              rcases List.mem_append.mp hm' with h | h
              · exact absurd h (by decide)
              · rcases List.mem_cons.mp h with h' | h'
                · exact hmnl h'.symm
                · rcases List.mem_cons.mp h' with h'' | h''
                  · exact absurd h'' (by decide)
                  · exact hline.2 (hrestline _ (mem_pyStrip h''))
        · rw [if_neg hl1]
          exact pass2Default_good hacc hgs
      | none => exact pass2Default_good hacc hgs

theorem pass2Step_good (kf ar h3 : Bool) (acc : List (List Char)) (line : List Char)
    (hline : SafeLine line ∧ '\n' ∉ line)
    (hacc : ∀ x ∈ acc, SafeLine x ∧ '\n' ∉ x) :
    ∀ x ∈ (pass2Step kf ar h3 acc line).2, SafeLine x ∧ '\n' ∉ x := by
  have hgs : SafeLine (pyStrip line) ∧ '\n' ∉ pyStrip line :=
    ⟨safeLine_pyStrip hline.1, fun hm => hline.2 (mem_pyStrip hm)⟩
  unfold pass2Step
  by_cases h1 : pyStrip line = kfH2
  · rw [if_pos h1]; exact good_append hacc hgs
  · rw [if_neg h1]
    by_cases h2 : pyStrip line = arH2
    · rw [if_pos h2]; exact good_append hacc hgs
    · rw [if_neg h2]
      by_cases h3' : h2Marker.isPrefixOf (pyStrip line) = true
      · rw [if_pos h3']; exact good_append hacc hgs
      · rw [if_neg h3']
        by_cases h4 : h3Marker.isPrefixOf (pyStrip line) = true
        · rw [if_pos h4]; exact good_append hacc hgs
        · rw [if_neg h4]
          exact pass2Emit_good kf ar h3 acc line hline hacc

theorem pass2Run_good :
    ∀ (lines : List (List Char)) (kf ar h3 : Bool) (acc : List (List Char)),
      (∀ l ∈ lines, SafeLine l ∧ '\n' ∉ l) → (∀ x ∈ acc, SafeLine x ∧ '\n' ∉ x) →
      ∀ x ∈ pass2Run kf ar h3 acc lines, SafeLine x ∧ '\n' ∉ x := by
  intro lines
  induction lines with
  | nil => intro kf ar h3 acc _ hacc x hx; exact hacc x hx
  | cons l ls ih =>
    intro kf ar h3 acc hl hacc x hx
    have hstep := pass2Step_good kf ar h3 acc l (hl l (List.mem_cons_self _ _)) hacc
    rcases hs : pass2Step kf ar h3 acc l with ⟨⟨kf', ar', h3'⟩, acc'⟩
    rw [hs] at hstep
    unfold pass2Run at hx
    rw [hs] at hx
    exact ih kf' ar' h3' acc'
      (fun y hy => hl y (List.mem_cons_of_mem l hy)) hstep x hx

theorem dropLeadingBlanks_subset {ls : List (List Char)} {x : List Char}
    (h : x ∈ dropLeadingBlanks ls) : x ∈ ls := by
  cases ls with
  | nil => simp [dropLeadingBlanks] at h
  | cons l rest =>
    simp only [dropLeadingBlanks] at h
    by_cases hb : pyStrip l = []
    · rw [if_pos hb] at h
      exact List.mem_cons_of_mem l (mem_of_mem_dropWhile h)
    · rw [if_neg hb] at h
      exact h

theorem dedupBlanks_subset :
    ∀ {ls acc : List (List Char)} {x : List Char},
      x ∈ dedupBlanks acc ls → x ∈ acc ∨ x ∈ ls := by
  intro ls
  induction ls with
  | nil => intro acc x h; exact Or.inl h
  | cons l rest ih =>
    intro acc x h
    unfold dedupBlanks at h
    by_cases hc : pyStrip l = [] ∧ emitBlankOk acc = false
    · rw [if_pos hc] at h
      rcases ih h with h' | h'
      · exact Or.inl h'
      · exact Or.inr (List.mem_cons_of_mem l h')
    · rw [if_neg hc] at h
      rcases ih h with h' | h'
      · rcases List.mem_append.mp h' with h'' | h''
        · exact Or.inl h''
        · rw [List.mem_singleton] at h''; subst h''
          exact Or.inr (List.mem_cons_self _ _)
      · exact Or.inr (List.mem_cons_of_mem l h')

/-! #### Lines of a string: basic structure -/

/-- The character is not a newline. -/
def notNL : Char → Bool := fun c => c != '\n'

theorem linesOf_ne_nil : ∀ s : List Char, linesOf s ≠ [] := by
  intro s
  cases s with
  | nil => simp [linesOf]
  | cons c rest =>
    unfold linesOf
    by_cases hc : c = '\n'
    · rw [if_pos hc]; simp
    · rw [if_neg hc]
      cases hp : linesOf rest <;> simp

theorem linesOf_nl_cons (X : List Char) : linesOf ('\n' :: X) = [] :: linesOf X := by
  simp [linesOf]

theorem linesOf_cons_eq {c : Char} {X h : List Char} {t : List (List Char)}
    (hc : c ≠ '\n') (hx : linesOf X = h :: t) :
    linesOf (c :: X) = (c :: h) :: t := by
  unfold linesOf
  rw [if_neg hc, hx]

theorem linesOf_head? :
    ∀ s : List Char, (linesOf s).head? = some (s.takeWhile notNL) := by
  intro s
  induction s with
  | nil => rfl
  | cons c rest ih =>
    by_cases hc : c = '\n'
    · subst hc
      rw [linesOf_nl_cons, List.head?_cons, List.takeWhile_cons]
      rw [if_neg (by simp [notNL])]
    · cases hx : linesOf rest with
      | nil => exact absurd hx (linesOf_ne_nil rest)
      | cons h t =>
        rw [linesOf_cons_eq hc hx, List.head?_cons, List.takeWhile_cons,
          if_pos (by simp [notNL, hc])]
        rw [hx, List.head?_cons, Option.some_inj] at ih
        rw [ih]

theorem linesOf_replicate :
    ∀ (k : Nat) (X : List Char),
      linesOf (List.replicate k '\n' ++ X) = List.replicate k [] ++ linesOf X := by
  intro k
  induction k with
  | zero => intro X; simp
  | succ m ih =>
    intro X
    rw [List.replicate_succ, List.replicate_succ, List.cons_append,
      linesOf_nl_cons, ih, List.cons_append]

theorem linesOf_nlFree : ∀ {l : List Char}, '\n' ∉ l → linesOf l = [l] := by
  intro l
  induction l with
  | nil => intro _; rfl
  | cons c rest ih =>
    intro h
    have hc : c ≠ '\n' := fun he => h (by rw [he]; exact List.mem_cons_self _ _)
    have hrest : '\n' ∉ rest := fun hm => h (List.mem_cons_of_mem c hm)
    rw [linesOf_cons_eq hc (ih hrest)]

theorem linesOf_append_nl_cons :
    ∀ {l : List Char}, '\n' ∉ l → ∀ s : List Char,
      linesOf (l ++ '\n' :: s) = l :: linesOf s := by
  intro l
  induction l with
  | nil => intro _ s; rw [List.nil_append, linesOf_nl_cons]
  | cons c rest ih =>
    intro h s
    have hc : c ≠ '\n' := fun he => h (by rw [he]; exact List.mem_cons_self _ _)
    have hrest : '\n' ∉ rest := fun hm => h (List.mem_cons_of_mem c hm)
    rw [List.cons_append, linesOf_cons_eq hc (ih hrest s)]

theorem linesOf_joinNL :
    ∀ {ds : List (List Char)}, ds ≠ [] → (∀ l ∈ ds, '\n' ∉ l) →
      linesOf (joinNL ds) = ds := by
  intro ds
  induction ds with
  | nil => intro h _; exact absurd rfl h
  | cons l ls ih =>
    intro _ hnl
    cases ls with
    | nil =>
      show linesOf (joinNL [l]) = [l]
      exact linesOf_nlFree (hnl l (List.mem_cons_self _ _))
    | cons l2 ls2 =>
      have hj : joinNL (l :: l2 :: ls2) = l ++ '\n' :: joinNL (l2 :: ls2) := rfl
      rw [hj, linesOf_append_nl_cons (hnl l (List.mem_cons_self _ _))]
      rw [ih (by simp) (fun y hy => hnl y (List.mem_cons_of_mem l hy))]

theorem linesOf_append_nl :
    ∀ X : List Char, linesOf (X ++ ['\n']) = linesOf X ++ [[]] := by
  intro X
  induction X with
  | nil => rfl
  | cons c X' ih =>
    by_cases hc : c = '\n'
    · subst hc
      rw [List.cons_append, linesOf_nl_cons, ih, linesOf_nl_cons, List.cons_append]
    · cases hx : linesOf X' with
      | nil => exact absurd hx (linesOf_ne_nil X')
      | cons h t =>
        rw [hx] at ih
        rw [List.cons_append,
          linesOf_cons_eq hc (X := X' ++ ['\n']) (by rw [ih]; rfl),
          linesOf_cons_eq hc hx]
        rfl

theorem linesOf_snoc_ne :
    ∀ (X : List Char) {Y : List (List Char)} {z : List Char} {c : Char},
      c ≠ '\n' → linesOf X = Y ++ [z] →
      linesOf (X ++ [c]) = Y ++ [z ++ [c]] := by
  intro X
  induction X with
  | nil =>
    intro Y z c hc h
    cases Y with
    | nil =>
      have hz : ([] : List Char) = z := by
        have h' : ([[]] : List (List Char)) = [z] := h
        injection h' with h1 _
      rw [List.nil_append, List.nil_append, ← hz, List.nil_append]
      rw [linesOf_cons_eq hc (show linesOf [] = [] :: [] from rfl)]
    | cons y ys =>
      have h' : ([[]] : List (List Char)) = y :: (ys ++ [z]) := by
        rw [← List.cons_append]; exact h
      injection h' with _ h2
      exact absurd h2.symm (by simp)
  | cons a X' ih =>
    intro Y z c hc h
    by_cases ha : a = '\n'
    · subst ha
      rw [linesOf_nl_cons] at h
      cases Y with
      | nil =>
        have h' : ([] : List Char) :: linesOf X' = z :: [] := h
        injection h' with _ h2
        exact absurd h2 (linesOf_ne_nil X')
      | cons y ys =>
        rw [List.cons_append] at h
        injection h with h1 h2
        subst h1
        rw [List.cons_append, linesOf_nl_cons, ih hc h2, List.cons_append]
    · cases hx : linesOf X' with
      | nil => exact absurd hx (linesOf_ne_nil X')
      | cons h2 t2 =>
        rw [linesOf_cons_eq ha hx] at h
        cases Y with
        | nil =>
          have h' : (a :: h2) :: t2 = z :: [] := h
          injection h' with hA hB
          have hx' : linesOf X' = [] ++ [h2] := by rw [hx, hB]; rfl
          rw [List.cons_append]
          rw [linesOf_cons_eq ha
            (show linesOf (X' ++ [c]) = (h2 ++ [c]) :: [] by
              rw [ih hc hx', List.nil_append])]
          rw [List.nil_append, ← hA, List.cons_append]
        | cons y ys =>
          rw [List.cons_append] at h
          injection h with hA hB
          have hx' : linesOf X' = (h2 :: ys) ++ [z] := by
            rw [hx, hB, List.cons_append]
          rw [List.cons_append]
          rw [linesOf_cons_eq ha
            (show linesOf (X' ++ [c]) = h2 :: (ys ++ [z ++ [c]]) by
              rw [ih hc hx', List.cons_append])]
          rw [← hA, List.cons_append]

theorem linesOf_reverse :
    ∀ s : List Char, linesOf s.reverse = (List.map List.reverse (linesOf s)).reverse := by
  intro s
  induction s with
  | nil => rfl
  | cons c s' ih =>
    rw [List.reverse_cons]
    by_cases hc : c = '\n'
    · subst hc
      rw [linesOf_append_nl, ih, linesOf_nl_cons, List.map_cons, List.reverse_cons]
      rfl
    · cases hx : linesOf s' with
      | nil => exact absurd hx (linesOf_ne_nil s')
      | cons h t =>
        have hrev : linesOf s'.reverse = (List.map List.reverse t).reverse ++ [h.reverse] := by
          rw [ih, hx, List.map_cons, List.reverse_cons]
        rw [linesOf_snoc_ne s'.reverse hc hrev]
        rw [linesOf_cons_eq hc hx, List.map_cons, List.reverse_cons, List.reverse_cons]

/-! #### Lines of the collapsed string are lines of the original -/

theorem collapseGo_takeWhile_pos :
    ∀ (s : List Char) (n : Nat), 1 ≤ n → (collapseGo n s).takeWhile notNL = [] := by
  intro s
  induction s with
  | nil =>
    intro n hn
    unfold collapseGo emitRun
    by_cases h3 : 3 ≤ n
    · rw [if_pos h3]; decide
    · rw [if_neg h3]
      cases n with
      | zero => exact absurd hn (by omega)
      | succ m => rw [List.replicate_succ]; simp [List.takeWhile_cons, notNL]
  | cons c cs ih =>
    intro n hn
    unfold collapseGo
    by_cases hc : c = '\n'
    · rw [if_pos hc]; exact ih (n + 1) (by omega)
    · rw [if_neg hc]
      unfold emitRun
      by_cases h3 : 3 ≤ n
      · rw [if_pos h3]; simp [List.takeWhile_cons, notNL]
      · rw [if_neg h3]
        cases n with
        | zero => exact absurd hn (by omega)
        | succ m => rw [List.replicate_succ]; simp [List.takeWhile_cons, notNL]

theorem collapseGo_takeWhile :
    ∀ s : List Char, (collapseGo 0 s).takeWhile notNL = s.takeWhile notNL := by
  intro s
  induction s with
  | nil => rfl
  | cons c cs ih =>
    by_cases hc : c = '\n'
    · subst hc
      have h1 : collapseGo 0 ('\n' :: cs) = collapseGo 1 cs := by
        conv_lhs => rw [collapseGo]
        rw [if_pos rfl]
      rw [h1, collapseGo_takeWhile_pos cs 1 (by omega), List.takeWhile_cons,
        if_neg (by simp [notNL])]
    · rw [collapseGo_cons_of_ne hc, List.takeWhile_cons, List.takeWhile_cons,
        if_pos (by simp [notNL, hc]), if_pos (by simp [notNL, hc]), ih]

theorem collapseGo_lines_sublist :
    ∀ (s : List Char) (n : Nat),
      (linesOf (collapseGo n s)).Sublist (List.replicate n [] ++ linesOf s) := by
  intro s
  induction s with
  | nil =>
    intro n
    unfold collapseGo emitRun
    by_cases h3 : 3 ≤ n
    · rw [if_pos h3, List.append_nil]
      have h1 : linesOf ['\n', '\n'] = List.replicate 2 ([] : List Char) ++ linesOf [] := by
        have h2 : (['\n', '\n'] : List Char) = List.replicate 2 '\n' ++ [] := rfl
        rw [h2, linesOf_replicate]
      rw [h1]
      exact List.Sublist.append
        ((List.replicate_sublist_replicate _).mpr (by omega)) (List.Sublist.refl _)
    · rw [if_neg h3, List.append_nil]
      have h1 : linesOf (List.replicate n '\n') =
          List.replicate n ([] : List Char) ++ linesOf [] := by
        conv_lhs => rw [← List.append_nil (List.replicate n '\n')]
        rw [linesOf_replicate]
      rw [h1]
  | cons c cs ih =>
    intro n
    unfold collapseGo
    by_cases hc : c = '\n'
    · rw [if_pos hc]
      subst hc
      rw [linesOf_nl_cons]
      have h := ih (n + 1)
      rw [List.replicate_succ', List.append_assoc, List.singleton_append] at h
      exact h
    · rw [if_neg hc]
      unfold emitRun
      have hblock : ∃ k, k ≤ n ∧
          (if 3 ≤ n then (['\n', '\n'] : List Char) else List.replicate n '\n') =
            List.replicate k '\n' := by
        by_cases h3 : 3 ≤ n
        · exact ⟨2, by omega, by rw [if_pos h3]; rfl⟩
        · exact ⟨n, le_refl n, by rw [if_neg h3]⟩
      obtain ⟨k, hk, hbe⟩ := hblock
      rw [hbe, linesOf_replicate]
      cases hx : linesOf cs with
      | nil => exact absurd hx (linesOf_ne_nil cs)
      | cons h2 t2 =>
        cases hy : linesOf (collapseGo 0 cs) with
        | nil => exact absurd hy (linesOf_ne_nil _)
        | cons hY tY =>
          have hhead : hY = h2 := by
            have e1 := linesOf_head? (collapseGo 0 cs)
            rw [hy, List.head?_cons, Option.some_inj] at e1
            have e2 := linesOf_head? cs
            rw [hx, List.head?_cons, Option.some_inj] at e2
            rw [e1, e2, collapseGo_takeWhile]
          subst hhead
          rw [linesOf_cons_eq hc hy, linesOf_cons_eq hc hx]
          have hsub : tY.Sublist t2 := by
            have h := ih 0
            rw [hy, hx] at h
            simp only [List.replicate, List.nil_append] at h
            exact (List.cons_sublist_cons).mp h
          exact List.Sublist.append
            ((List.replicate_sublist_replicate _).mpr hk)
            ((List.cons_sublist_cons).mpr hsub)

/-! #### Lines of the stripped string match lines of the original, up to strip -/

theorem lines_dropWhile_strip :
    ∀ s : List Char, ∀ line ∈ linesOf (s.dropWhile isPySpace),
      ∃ l', l' ∈ linesOf s ∧ pyStrip line = pyStrip l' := by
  intro s
  induction s with
  | nil => intro line h; exact ⟨line, h, rfl⟩
  | cons c s' ih =>
    intro line h
    by_cases hp : isPySpace c = true
    · rw [List.dropWhile_cons, if_pos hp] at h
      obtain ⟨l', hl', he⟩ := ih line h
      by_cases hc : c = '\n'
      · subst hc
        exact ⟨l', by rw [linesOf_nl_cons]; exact List.mem_cons_of_mem _ hl', he⟩
      · cases hx : linesOf s' with
        | nil => exact absurd hx (linesOf_ne_nil s')
        | cons hh tt =>
          rw [hx] at hl'
          rcases List.mem_cons.mp hl' with rfl | hl''
          · refine ⟨c :: l', ?_, ?_⟩
            · rw [linesOf_cons_eq hc hx]; exact List.mem_cons_self _ _
            · rw [he]
              exact (@pyStrip_ws_append [c] l'
                (by intro x hx'; rw [List.mem_singleton] at hx'; subst hx'; exact hp)).symm
          · exact ⟨l', by rw [linesOf_cons_eq hc hx]; exact List.mem_cons_of_mem _ hl'', he⟩
    · rw [List.dropWhile_cons, if_neg hp] at h
      exact ⟨line, h, rfl⟩

theorem dropWhile_append_of_ne_nil {p : Char → Bool} {X Y : List Char}
    (h : X.dropWhile p ≠ []) : (X ++ Y).dropWhile p = X.dropWhile p ++ Y := by
  rw [List.dropWhile_append, if_neg]
  simp [List.isEmpty_iff, h]

theorem strip_comm (p : Char → Bool) :
    ∀ l : List Char,
      ((l.dropWhile p).reverse.dropWhile p).reverse =
        (l.reverse.dropWhile p).reverse.dropWhile p := by
  intro l
  induction l with
  | nil => rfl
  | cons c l' ih =>
    by_cases hp : p c = true
    · rw [List.dropWhile_cons, if_pos hp]
      by_cases hE : l'.reverse.dropWhile p = []
      · have hall : ∀ x ∈ l'.reverse, p x = true := List.dropWhile_eq_nil_iff.mp hE
        have hall' : ∀ x ∈ l', p x = true := fun x hx =>
          hall x (List.mem_reverse.mpr hx)
        have h1 : l'.dropWhile p = [] := List.dropWhile_eq_nil_iff.mpr hall'
        rw [h1, List.reverse_cons, dropWhile_append_all hall]
        simp [List.dropWhile_cons, hp]
      · have h2 : (l'.reverse ++ [c]).dropWhile p = l'.reverse.dropWhile p ++ [c] :=
          dropWhile_append_of_ne_nil hE
        rw [List.reverse_cons, h2, List.reverse_append]
        rw [show ([c] : List Char).reverse = [c] from rfl, List.singleton_append]
        rw [List.dropWhile_cons, if_pos hp]
        exact ih
    · rw [List.dropWhile_cons, if_neg hp]
      by_cases hE : l'.reverse.dropWhile p = []
      · have hall : ∀ x ∈ l'.reverse, p x = true := List.dropWhile_eq_nil_iff.mp hE
        have h2 : (l'.reverse ++ [c]).dropWhile p = [c] := by
          rw [dropWhile_append_all hall, List.dropWhile_cons, if_neg hp]
        rw [List.reverse_cons, h2]
        rw [show ([c] : List Char).reverse = [c] from rfl,
          List.dropWhile_cons, if_neg hp]
      · have h2 : (l'.reverse ++ [c]).dropWhile p = l'.reverse.dropWhile p ++ [c] :=
          dropWhile_append_of_ne_nil hE
        rw [List.reverse_cons, h2, List.reverse_append]
        rw [show ([c] : List Char).reverse = [c] from rfl, List.singleton_append]
        rw [List.dropWhile_cons, if_neg hp]

theorem pyStrip_reverse (l : List Char) : pyStrip l.reverse = (pyStrip l).reverse := by
  unfold pyStrip
  rw [List.reverse_reverse]
  have h := strip_comm isPySpace l.reverse
  rw [List.reverse_reverse] at h
  exact h

theorem lines_pyStrip (s : List Char) :
    ∀ line ∈ linesOf (pyStrip s),
      ∃ l', l' ∈ linesOf s ∧ pyStrip line = pyStrip l' := by
  intro line hline
  unfold pyStrip at hline
  rw [linesOf_reverse, List.mem_reverse, List.mem_map] at hline
  obtain ⟨b, hb, hbl⟩ := hline
  obtain ⟨a', ha', hba'⟩ := lines_dropWhile_strip _ b hb
  rw [linesOf_reverse, List.mem_reverse, List.mem_map] at ha'
  obtain ⟨a, ha, haa⟩ := ha'
  obtain ⟨l', hl', hal⟩ := lines_dropWhile_strip _ a ha
  refine ⟨l', hl', ?_⟩
  rw [← hbl, pyStrip_reverse, hba', ← haa, pyStrip_reverse, List.reverse_reverse, hal]

theorem pySplitlines_nlFree :
    ∀ {s : List Char} {l : List Char}, l ∈ pySplitlines s → '\n' ∉ l := by
  intro s
  induction s with
  | nil => intro l hl; simp [pySplitlines] at hl
  | cons a as ih =>
    intro l hl
    unfold pySplitlines at hl
    by_cases ha : a = '\n'
    · rw [if_pos ha] at hl
      rcases List.mem_cons.mp hl with rfl | hl'
      · simp
      · exact ih hl'
    · rw [if_neg ha] at hl
      cases hp : pySplitlines as with
      | nil =>
        rw [hp] at hl
        simp at hl
        subst hl
        intro hm
        rw [List.mem_singleton] at hm
        exact ha hm.symm
      | cons h t =>
        rw [hp] at hl
        rcases List.mem_cons.mp hl with rfl | hl'
        · intro hm
          rcases List.mem_cons.mp hm with hm' | hm'
          · exact ha hm'.symm
          · exact ih (by rw [hp]; exact List.mem_cons_self _ _) hm'
        · exact ih (by rw [hp]; exact List.mem_cons_of_mem h hl')

/-- Claim C10: no line of the final output of `transform_content` has a
trimmed form equal to `"Overall Assessment:"`,
`"Key Findings and Suggestions:"` or `"Actionable Recommendations:"`, and no
line has a trimmed form starting with `"File Path: "`: every such input line
is rewritten to a heading in pass 1, and no later rule can produce one. -/
theorem c10_no_raw_labels (content : List Char) :
    ∀ line ∈ linesOf (transform_content content), SafeLine line := by
  have hsplit : ∀ l ∈ pySplitlines content, '\n' ∉ l :=
    fun l hl => pySplitlines_nlFree hl
  have htemp := pass1Run_good (pySplitlines content) false false hsplit
  have hproc := pass2Run_good ((pass1Run false false (pySplitlines content)).2)
    (pass1Run false false (pySplitlines content)).1.1
    (pass1Run false false (pySplitlines content)).1.2 false [] htemp
    (by intro x hx; simp at hx)
  have hds : ∀ l ∈ dedupBlanks [] (dropLeadingBlanks
      (pass2Run (pass1Run false false (pySplitlines content)).1.1
        (pass1Run false false (pySplitlines content)).1.2 false []
        (pass1Run false false (pySplitlines content)).2)),
      SafeLine l ∧ '\n' ∉ l := by
    intro l hl
    rcases dedupBlanks_subset hl with h | h
    · simp at h
    · exact hproc l (dropLeadingBlanks_subset h)
  intro line hline
  rw [transform_content_def] at hline
  unfold collapseRuns at hline
  have h1 : line ∈ linesOf (pyStrip (joinNL (dedupBlanks [] (dropLeadingBlanks
      (pass2Run (pass1Run false false (pySplitlines content)).1.1
        (pass1Run false false (pySplitlines content)).1.2 false []
        (pass1Run false false (pySplitlines content)).2))))) := by
    have hsub := collapseGo_lines_sublist (pyStrip (joinNL (dedupBlanks []
      (dropLeadingBlanks (pass2Run (pass1Run false false (pySplitlines content)).1.1
        (pass1Run false false (pySplitlines content)).1.2 false []
        (pass1Run false false (pySplitlines content)).2))))) 0
    simp only [List.replicate, List.nil_append] at hsub
    exact hsub.subset hline
  obtain ⟨l', hl', hps⟩ := lines_pyStrip _ line h1
  by_cases hdse : dedupBlanks [] (dropLeadingBlanks
      (pass2Run (pass1Run false false (pySplitlines content)).1.1
        (pass1Run false false (pySplitlines content)).1.2 false []
        (pass1Run false false (pySplitlines content)).2)) = []
  · rw [hdse] at hl'
    have hl'' : l' = [] := by
      have hmem : l' ∈ ([[]] : List (List Char)) := hl'
      simpa using hmem
    subst hl''
    exact safeLine_of_pyStrip_nil (by rw [hps]; rfl)
  · rw [linesOf_joinNL hdse (fun l hl => (hds l hl).2)] at hl'
    exact safeLine_of_eq hps (hds l' hl').1

/-- Witness for C10: the output of the input `"hello"` has the single line
`"hello"`, which is safe. -/
theorem c10_witness :
    "hello".toList ∈ linesOf (transform_content "hello".toList) ∧
      SafeLine "hello".toList := by
  constructor
  · decide
  · exact c10_no_raw_labels "hello".toList "hello".toList (by decide)

